import Mathlib

/-!
Shallow embedding of `src/dependencies.py` (a Haiku package dependency grapher)
and proofs about its core logic.

Modelling conventions:
* Python strings are Lean `String`s, except in the DOT escaping helpers where a
  string is a `List Char` so that the character-level replacement loop of
  `str.replace` can be stated directly.
* A Python `set` of strings is a duplicate-free list built with `setAdd`; the
  arbitrary iteration / pop order of a Python set is fixed to list order here
  (the spec itself calls the emission order an accepted nondeterminism).
* A Python dict or `collections.defaultdict` keyed by strings is a total
  function with the default as its base value; an untouched key maps to the
  default, matching an absent defaultdict entry.
* The external collaborators (`/bin/package`, `/bin/finddir`, the filesystem)
  are oracles bundled in `SysEnv`.
-/

namespace Dependencies

/-- One record of the `packages` list built by `read_package` (lines 30-48):
the package name, its path, and the `provides` / `requires` capability sets. -/
structure Package where
  name : String
  path : String
  provides : List String
  requires : List String
deriving DecidableEq

/-- Adding an element to a Python `set` modelled as a duplicate-free list. -/
def setAdd (l : List String) (x : String) : List String :=
  if x ∈ l then l else l ++ [x]

/-- The `package_map[name] = package` assignments of `do_requirements_graph`
(line 106) and `do_level1_graph` (line 152): a later package with the same name
shadows an earlier one, as in a Python dict. -/
def package_map (P : List Package) : String → Option Package :=
  P.foldl (fun m p => fun n => if n = p.name then some p else m n) (fun _ => none)

/-- `providers[entity].append(name)` for every capability a package provides
(lines 107-108 and 153-154), in package order. -/
def providers (P : List Package) : String → List String :=
  P.foldl (fun m p => fun c => if c ∈ p.provides then m c ++ [p.name] else m c)
    (fun _ => [])

/-- `requirers[entity].append(name)` for every capability a package requires
(lines 155-156), in package order. -/
def requirers (P : List Package) : String → List String :=
  P.foldl (fun m p => fun c => if c ∈ p.requires then m c ++ [p.name] else m c)
    (fun _ => [])

/-- `requirements`, the union of every package's requires set, built by
`set().update(...)` in `do_leaves` (lines 68-69); only membership matters. -/
def allRequired (P : List Package) : List String :=
  P.foldl (fun a p => a ++ p.requires) []

/-- The `for entity in provides: if entity in requirements: break / else:` test
of `do_leaves` (lines 70-74): true iff no provided capability is required. -/
def isLeaf (P : List Package) (p : Package) : Bool :=
  p.provides.all (fun c => !(decide (c ∈ allRequired P)))

/-- `do_leaves` (lines 64-75): the packages whose name and path are printed,
kept in input (discovery) order. -/
def do_leaves (P : List Package) : List Package :=
  P.filter (isLeaf P)

/-- Python `str.replace(pat, rep)` on character lists: scan left to right,
replace non-overlapping occurrences. The fuel argument, initialised to the
length of the string, only enforces totality: every step consumes at least one
character, so the scan never runs out before the string does. -/
def strReplaceAux (pat rep : List Char) : Nat → List Char → List Char
  | 0, s => s
  | fuel + 1, s =>
    match s with
    | [] => []
    | c :: rest =>
      if !pat.isEmpty && pat.isPrefixOf (c :: rest) then
        rep ++ strReplaceAux pat rep fuel ((c :: rest).drop pat.length)
      else
        c :: strReplaceAux pat rep fuel rest

/-- Python `s.replace(pat, rep)`. -/
def strReplace (pat rep s : List Char) : List Char :=
  strReplaceAux pat rep s.length s

/-- `escape_DOT_string` (lines 77-78): `string.replace('\\"', '\\\\"')`, i.e.
rewrite each two-character sequence backslash-quote to
backslash-backslash-quote.  Nothing else is rewritten. -/
def escape_DOT_string (s : List Char) : List Char :=
  strReplace ['\\', '\"'] ['\\', '\\', '\"'] s

/-- `escape_DOT_label` (lines 80-89).  Line 82 reads
`string.replace('\\', '\\\\"')` without assigning the result, so it has no
effect on the returned string; the embedding reflects that by omitting it.
Then newlines become `\l` for left, `\r` for right, and are kept for center. -/
def escape_DOT_label (s : List Char) (justify : String) : List Char :=
  let s1 := escape_DOT_string s
  if justify = "left" then strReplace ['\n'] ['\\', 'l'] s1
  else if justify = "right" then strReplace ['\n'] ['\\', 'r'] s1
  else s1

/-- Oracles for the external collaborators used by `finddir` / `get_packages`:
`finddirOut which = none` models `/bin/finddir which` exiting non-zero, and
`some dir` models its stdout already stripped of the final newline (line 54);
`hpkgFiles dir` models `Path(dir).glob('*.hpkg')` (line 60); `readPackage file`
models `read_package file` (lines 30-48). -/
structure SysEnv where
  finddirOut : String → Option String
  hpkgFiles : String → List String
  readPackage : String → Package

/-- `finddir` (lines 50-54): on a non-zero return code it returns `''`
(`subprocess.run` is called without `check`, so no exception is raised). -/
def finddir (env : SysEnv) (which : String) : String :=
  match env.finddirOut which with
  | none => ""
  | some out => out

/-- Python path normalisation: `pathlib.Path('')` equals `Path('.')`, the
current working directory, so globbing it scans the current directory. -/
def pathOf (s : String) : String := if s = "" then "." else s

/-- `get_packages` (lines 56-62): read every `*.hpkg` file found in the two
platform directories, in directory then glob order. -/
def get_packages (env : SysEnv) : List Package :=
  ((["B_SYSTEM_PACKAGES_DIRECTORY", "B_USER_PACKAGES_DIRECTORY"].flatMap
      (fun d => env.hpkgFiles (pathOf (finddir env d)))).map env.readPackage)

/-- An edge printed by the closure traversal: source, destination, capability. -/
abbrev Edge := String × String × String

/-- Result of the closure work loop.  `keyError` models the uncaught `KeyError`
that line 131 would raise on an unknown, unvisited name; `fuelOut` is the
totality device of the embedding, shown unreachable for the fuel that
`closureRun` supplies. -/
inductive ClosureResult where
  | finished (visited : List String) (edges : List Edge)
  | keyError
  | fuelOut
deriving DecidableEq

/-- The names added to the work-set while a package is expanded: every provider
of every required capability (line 139). -/
def expandAdds (P : List Package) (pkg : Package) : List String :=
  pkg.requires.flatMap (providers P)

/-- The edges printed while a package is expanded: one
`(source, dependency, capability)` triple per provider of each required
capability (lines 132-138). -/
def expandEdges (P : List Package) (pkg : Package) : List Edge :=
  pkg.requires.flatMap (fun c => (providers P c).map (fun d => (pkg.name, d, c)))

/-- The `while graph_packages:` loop of `do_requirements_graph`
(lines 127-141): pop a name; skip it when visited; expand it otherwise,
printing its edges, adding the dependencies to the work-set and marking it
visited. -/
def closureLoop (P : List Package) :
    Nat → List String → List String → List Edge → ClosureResult
  | _, [], visited, edges => .finished visited edges
  | 0, _ :: _, _, _ => .fuelOut
  | fuel + 1, p :: work, visited, edges =>
    if p ∈ visited then
      closureLoop P fuel work visited edges
    else
      match package_map P p with
      | none => .keyError
      | some pkg =>
          closureLoop P fuel ((expandAdds P pkg).foldl setAdd work)
            (p :: visited) (edges ++ expandEdges P pkg)

/-- Loop bound contribution of one package: one expansion step plus the number
of work-set additions its expansion can make. -/
def weight (P : List Package) (pkg : Package) : Nat :=
  1 + (expandAdds P pkg).length

/-- Fuel sufficient for the whole closure loop: the initial work-set length
plus the weight of every package. -/
def closureFuel (P : List Package) (work : List String) : Nat :=
  work.length + (P.map (weight P)).sum

/-- A bound on the remaining loop iterations: the current work-set length plus
the weight of every package not yet visited. -/
def sumWeights (P : List Package) (visited : List String) : Nat :=
  ((P.filter (fun q => decide (q.name ∉ visited))).map (weight P)).sum

/-- The seed names with no discovered package: printed with a red fill and
added to `visited` before the loop starts (lines 119-124), so they are never
expanded. -/
def unresolvedSeeds (P : List Package) (work : List String) : List String :=
  work.filter (fun s => (package_map P s).isNone)

/-- `do_requirements_graph` after argument handling (lines 100-141): build the
work-set from the seed names, pre-visit the unresolved ones, run the loop. -/
def closureRun (P : List Package) (seeds : List String) : ClosureResult :=
  let work := seeds.foldl setAdd []
  closureLoop P (closureFuel P work) work (unresolvedSeeds P work) []

/-- State of `do_level1_graph`: the `outside_nodes` and `error_nodes` sets and
the `edges` defaultdict, as a total map from source name to its recorded
destination list (an untouched name maps to `[]`). -/
structure L1State where
  outside : List String
  error : List String
  edgeMap : String → List String

/-- One element added to an edge collection: `list_with_alias.add`/`extend`
appends in all-edges mode, `set.add`/`update` deduplicates otherwise
(lines 164-172). -/
def edgeAdd (allEdges : Bool) (l : List String) (x : String) : List String :=
  if allEdges then l ++ [x] else setAdd l x

/-- Body of the dependents pass (lines 187-191): a dependent `q` outside the
interest set becomes an outside node with the edge `(q, pname)`. -/
def dependentStep (interest : List String) (allEdges : Bool) (pname : String)
    (st : L1State) (q : String) : L1State :=
  if q ∈ interest then st
  else
    { outside := setAdd st.outside q
      error := st.error
      edgeMap := fun k =>
        if k = q then edgeAdd allEdges (st.edgeMap q) pname else st.edgeMap k }

/-- Body of the `for package_name in graph_packages:` loop (lines 174-191):
unknown names become error nodes; a known package accumulates its dependency
edges, marks dependencies outside the interest set as outside nodes, and runs
the dependents pass over every capability it provides. -/
def level1Package (P : List Package) (interest : List String) (allEdges : Bool)
    (st : L1State) (pname : String) : L1State :=
  match package_map P pname with
  | none => { st with error := setAdd st.error pname }
  | some pkg =>
      let deps := (expandAdds P pkg).foldl (edgeAdd allEdges) (st.edgeMap pname)
      let st1 : L1State :=
        { outside := deps.foldl (fun o d => if d ∈ interest then o else setAdd o d) st.outside
          error := st.error
          edgeMap := fun k => if k = pname then deps else st.edgeMap k }
      pkg.provides.foldl
        (fun s c => (requirers P c).foldl (dependentStep interest allEdges pname) s) st1

/-- `graph_packages` (lines 157-160): the set of the given names, or of every
discovered package name when no name is given. -/
def interestList (P : List Package) (names : List String) : List String :=
  if names = [] then (P.map Package.name).foldl setAdd [] else names.foldl setAdd []

/-- `do_level1_graph` up to rendering (lines 144-191). -/
def do_level1_graph (P : List Package) (names : List String) (allEdges : Bool) :
    L1State :=
  (interestList P names).foldl
    (level1Package P (interestList P names) allEdges) ⟨[], [], fun _ => []⟩

/-- The dependency list accumulated into `edges[pname]` while `pname` itself is
processed: empty when the name is unknown. -/
def depAdds (P : List Package) (pname : String) : List String :=
  match package_map P pname with
  | none => []
  | some pkg => expandAdds P pkg

/-- The names appended to `edges[k]` by the dependents pass while `pname` is
processed: one copy of `pname` per occurrence of `k` among the requirers of the
capabilities `pname` provides, and only when `k` is outside the interest set. -/
def depContrib (P : List Package) (interest : List String) (pname k : String) :
    List String :=
  match package_map P pname with
  | none => []
  | some pkg =>
      ((pkg.provides.flatMap (requirers P)).filter
        (fun q => decide (q ∉ interest) && (q == k))).map (fun _ => pname)

/-- Scenario fixture from the spec: `A{provides x}`, `B{provides y, requires x}`,
`C{requires y}`. -/
def pkgA : Package := ⟨"A", "/pkg/A", ["x"], []⟩

/-- Scenario fixture, second package. -/
def pkgB : Package := ⟨"B", "/pkg/B", ["y"], ["x"]⟩

/-- Scenario fixture, third package. -/
def pkgC : Package := ⟨"C", "/pkg/C", [], ["y"]⟩

/-- The three scenario packages, in discovery order. -/
def threePkgs : List Package := [pkgA, pkgB, pkgC]

/-- Two packages where `B` depends on `A` and both are in the interest set. -/
def twoPkgs : List Package :=
  [⟨"A", "/pkg/A", ["x"], []⟩, ⟨"B", "/pkg/B", [], ["x"]⟩]

/-- An isolated package: it provides nothing and requires nothing, so it has
neither dependencies nor dependents. -/
def isoPkg : Package := ⟨"Z", "/pkg/Z", [], []⟩

/-- Environment for the directory-lookup-failure scenario: the system directory
lookup fails, the user directory resolves but holds no packages, and the
process's current working directory contains a stray `.hpkg` file. -/
def strayEnv : SysEnv where
  finddirOut := fun which =>
    if which = "B_USER_PACKAGES_DIRECTORY" then some "/user/pkgdir" else none
  hpkgFiles := fun dir => if dir = "." then ["stray.hpkg"] else []
  readPackage := fun f => ⟨"stray", f, [], []⟩

/-! ### Basic lemmas about the set and index models -/

theorem mem_setAdd (l : List String) (x y : String) :
    y ∈ setAdd l x ↔ y ∈ l ∨ y = x := by
  unfold setAdd
  by_cases h : x ∈ l
  · simp only [if_pos h]
    constructor
    · exact Or.inl
    · rintro (hy | rfl)
      · exact hy
      · exact h
  · simp [if_neg h]

theorem setAdd_nodup (l : List String) (x : String) (h : l.Nodup) :
    (setAdd l x).Nodup := by
  unfold setAdd
  by_cases hx : x ∈ l
  · simpa [if_pos hx] using h
  · simp [if_neg hx, List.nodup_append, h, hx]

theorem foldl_setAdd_mem (l acc : List String) (y : String) :
    y ∈ l.foldl setAdd acc ↔ y ∈ acc ∨ y ∈ l := by
  induction l generalizing acc with
  | nil => simp
  | cons x xs ih =>
      simp only [List.foldl_cons, ih, mem_setAdd, List.mem_cons]
      tauto

theorem foldl_setAdd_nodup (l acc : List String) (h : acc.Nodup) :
    (l.foldl setAdd acc).Nodup := by
  induction l generalizing acc with
  | nil => exact h
  | cons x xs ih => exact ih _ (setAdd_nodup _ _ h)

theorem setAdd_length_le (l : List String) (x : String) :
    (setAdd l x).length ≤ l.length + 1 := by
  unfold setAdd
  by_cases hx : x ∈ l <;> simp [hx]

theorem foldl_setAdd_length (l acc : List String) :
    (l.foldl setAdd acc).length ≤ acc.length + l.length := by
  induction l generalizing acc with
  | nil => simp
  | cons x xs ih =>
      have h1 := ih (setAdd acc x)
      have h2 := setAdd_length_le acc x
      simp only [List.foldl_cons, List.length_cons]
      omega

theorem edgeAdd_mem (b : Bool) (l : List String) (x y : String) :
    y ∈ edgeAdd b l x ↔ y ∈ l ∨ y = x := by
  cases b with
  | false => simpa [edgeAdd] using mem_setAdd l x y
  | true => simp [edgeAdd]

theorem foldl_edgeAdd_mem (b : Bool) (l acc : List String) (y : String) :
    y ∈ l.foldl (edgeAdd b) acc ↔ y ∈ acc ∨ y ∈ l := by
  induction l generalizing acc with
  | nil => simp
  | cons x xs ih =>
      simp only [List.foldl_cons, ih, edgeAdd_mem, List.mem_cons]
      tauto

theorem foldl_edgeAdd_true (l acc : List String) :
    l.foldl (edgeAdd true) acc = acc ++ l := by
  induction l generalizing acc with
  | nil => simp
  | cons x xs ih => simp [edgeAdd, ih]

theorem foldl_edgeAdd_false_nodup (l acc : List String) (h : acc.Nodup) :
    (l.foldl (edgeAdd false) acc).Nodup := by
  have : edgeAdd false = setAdd := by
    funext a b
    simp [edgeAdd]
  rw [this]
  exact foldl_setAdd_nodup l acc h

theorem package_map_foldl_some (l : List Package) (m : String → Option Package)
    (n : String) (pkg : Package)
    (h : (l.foldl (fun m p => fun x => if x = p.name then some p else m x) m) n = some pkg) :
    (pkg ∈ l ∧ pkg.name = n) ∨ m n = some pkg := by
  induction l generalizing m with
  | nil => exact Or.inr h
  | cons p l ih =>
      rw [List.foldl_cons] at h
      rcases ih _ h with h1 | h2
      · exact Or.inl ⟨List.mem_cons_of_mem _ h1.1, h1.2⟩
      · by_cases hx : n = p.name
        · rw [if_pos hx] at h2
          cases h2
          exact Or.inl ⟨List.mem_cons_self _ _, hx.symm⟩
        · rw [if_neg hx] at h2
          exact Or.inr h2

theorem package_map_some (P : List Package) (n : String) (pkg : Package)
    (h : package_map P n = some pkg) : pkg ∈ P ∧ pkg.name = n := by
  rcases package_map_foldl_some P _ n pkg h with h1 | h2
  · exact h1
  · cases h2

theorem package_map_foldl_none (l : List Package) (m : String → Option Package)
    (n : String) :
    (l.foldl (fun m p => fun x => if x = p.name then some p else m x) m) n = none ↔
      (∀ p ∈ l, p.name ≠ n) ∧ m n = none := by
  induction l generalizing m with
  | nil => simp
  | cons p l ih =>
      rw [List.foldl_cons, ih]
      by_cases hx : n = p.name
      · simp [hx]
      · constructor
        · rintro ⟨ha, hb⟩
          rw [if_neg hx] at hb
          refine ⟨?_, hb⟩
          intro q hq
          rcases List.mem_cons.mp hq with rfl | hq
          · exact fun he => hx he.symm
          · exact ha q hq
        · rintro ⟨ha, hb⟩
          exact ⟨fun q hq => ha q (List.mem_cons_of_mem _ hq), by rw [if_neg hx]; exact hb⟩

theorem package_map_none (P : List Package) (n : String) :
    package_map P n = none ↔ ∀ p ∈ P, p.name ≠ n := by
  unfold package_map
  rw [package_map_foldl_none]
  simp

theorem package_map_isSome_of_mem (P : List Package) (q : Package)
    (hq : q ∈ P) (n : String) (hn : q.name = n) : (package_map P n).isSome := by
  cases h : package_map P n with
  | none => exact absurd hn ((package_map_none P n).mp h q hq)
  | some pkg => rfl

theorem providers_foldl (l : List Package) (m : String → List String) (c : String) :
    (l.foldl (fun m p => fun c => if c ∈ p.provides then m c ++ [p.name] else m c) m) c =
      m c ++ (l.filter (fun p => decide (c ∈ p.provides))).map Package.name := by
  induction l generalizing m with
  | nil => simp
  | cons p l ih =>
      rw [List.foldl_cons, ih]
      by_cases h : c ∈ p.provides
      · simp [h, List.filter_cons]
      · simp [h, List.filter_cons]

theorem requirers_foldl (l : List Package) (m : String → List String) (c : String) :
    (l.foldl (fun m p => fun c => if c ∈ p.requires then m c ++ [p.name] else m c) m) c =
      m c ++ (l.filter (fun p => decide (c ∈ p.requires))).map Package.name := by
  induction l generalizing m with
  | nil => simp
  | cons p l ih =>
      rw [List.foldl_cons, ih]
      by_cases h : c ∈ p.requires
      · simp [h, List.filter_cons]
      · simp [h, List.filter_cons]

theorem providers_eq (P : List Package) (c : String) :
    providers P c = (P.filter (fun p => decide (c ∈ p.provides))).map Package.name := by
  unfold providers
  rw [providers_foldl]
  simp

theorem requirers_eq (P : List Package) (c : String) :
    requirers P c = (P.filter (fun p => decide (c ∈ p.requires))).map Package.name := by
  unfold requirers
  rw [requirers_foldl]
  simp

theorem mem_providers (P : List Package) (c n : String) :
    n ∈ providers P c ↔ ∃ p ∈ P, p.name = n ∧ c ∈ p.provides := by
  rw [providers_eq]
  simp only [List.mem_map, List.mem_filter, decide_eq_true_eq]
  constructor
  · rintro ⟨p, ⟨hp, hc⟩, hn⟩
    exact ⟨p, hp, hn, hc⟩
  · rintro ⟨p, hp, hn, hc⟩
    exact ⟨p, ⟨hp, hc⟩, hn⟩

theorem mem_requirers (P : List Package) (c n : String) :
    n ∈ requirers P c ↔ ∃ p ∈ P, p.name = n ∧ c ∈ p.requires := by
  rw [requirers_eq]
  simp only [List.mem_map, List.mem_filter, decide_eq_true_eq]
  constructor
  · rintro ⟨p, ⟨hp, hc⟩, hn⟩
    exact ⟨p, hp, hn, hc⟩
  · rintro ⟨p, hp, hn, hc⟩
    exact ⟨p, ⟨hp, hc⟩, hn⟩

theorem mem_providers_isSome (P : List Package) (c n : String)
    (h : n ∈ providers P c) : (package_map P n).isSome := by
  rcases (mem_providers P c n).mp h with ⟨p, hp, hn, _⟩
  exact package_map_isSome_of_mem P p hp n hn

theorem mem_expandAdds_isSome (P : List Package) (pkg : Package) (n : String)
    (h : n ∈ expandAdds P pkg) : (package_map P n).isSome := by
  unfold expandAdds at h
  rcases List.mem_flatMap.mp h with ⟨c, _, hc⟩
  exact mem_providers_isSome P c n hc

theorem mem_allRequired_foldl (l : List Package) (acc : List String) (c : String) :
    c ∈ l.foldl (fun a p => a ++ p.requires) acc ↔ c ∈ acc ∨ ∃ q ∈ l, c ∈ q.requires := by
  induction l generalizing acc with
  | nil => simp
  | cons p l ih =>
      rw [List.foldl_cons, ih]
      simp only [List.mem_append, List.mem_cons]
      constructor
      · rintro ((h | h) | ⟨q, hq, hc⟩)
        · exact Or.inl h
        · exact Or.inr ⟨p, Or.inl rfl, h⟩
        · exact Or.inr ⟨q, Or.inr hq, hc⟩
      · rintro (h | ⟨q, (rfl | hq), hc⟩)
        · exact Or.inl (Or.inl h)
        · exact Or.inl (Or.inr hc)
        · exact Or.inr ⟨q, hq, hc⟩

theorem mem_allRequired (P : List Package) (c : String) :
    c ∈ allRequired P ↔ ∃ q ∈ P, c ∈ q.requires := by
  unfold allRequired
  rw [mem_allRequired_foldl]
  simp

theorem isLeaf_iff (P : List Package) (p : Package) :
    isLeaf P p = true ↔ ∀ c ∈ p.provides, ∀ q ∈ P, c ∉ q.requires := by
  unfold isLeaf
  rw [List.all_eq_true]
  constructor
  · intro h c hc q hq hcq
    have := h c hc
    simp only [Bool.not_eq_true', decide_eq_false_iff_not] at this
    exact this ((mem_allRequired P c).mpr ⟨q, hq, hcq⟩)
  · intro h c hc
    simp only [Bool.not_eq_true', decide_eq_false_iff_not]
    intro hmem
    rcases (mem_allRequired P c).mp hmem with ⟨q, hq, hcq⟩
    exact h c hc q hq hcq

/-! ### Claim C5: capability-index correctness -/

/-- C5: for every package list, a name appears in `providers[c]` iff a package
with that name provides `c` (symmetrically for `requirers`), and the index
lists are exactly the package names in encounter order, one entry per package
that provides (requires) the capability, duplicates allowed. -/
theorem capability_index_spec (P : List Package) (c n : String) :
    providers P c = (P.filter (fun p => decide (c ∈ p.provides))).map Package.name ∧
    requirers P c = (P.filter (fun p => decide (c ∈ p.requires))).map Package.name ∧
    (n ∈ providers P c ↔ ∃ p ∈ P, p.name = n ∧ c ∈ p.provides) ∧
    (n ∈ requirers P c ↔ ∃ p ∈ P, p.name = n ∧ c ∈ p.requires) :=
  ⟨providers_eq P c, requirers_eq P c, mem_providers P c n, mem_requirers P c n⟩

/-! ### Claim C2: leaf detection -/

/-- C2: `do_leaves` returns a sublist of its input (hence a subset, reported in
input order) containing exactly the packages none of whose provided
capabilities is required by any package; a package providing nothing is always
a leaf. -/
theorem find_leaves_spec :
    (∀ P : List Package, (do_leaves P).Sublist P) ∧
    (∀ (P : List Package) (p : Package),
      p ∈ do_leaves P ↔ p ∈ P ∧ ∀ c ∈ p.provides, ∀ q ∈ P, c ∉ q.requires) ∧
    (∀ (P : List Package) (p : Package), p ∈ P → p.provides = [] → p ∈ do_leaves P) := by
  refine ⟨fun P => List.filter_sublist P, fun P p => ?_, fun P p hp hnone => ?_⟩
  · rw [do_leaves, List.mem_filter, isLeaf_iff]
  · rw [do_leaves, List.mem_filter, isLeaf_iff]
    exact ⟨hp, by simp [hnone]⟩

/-- Witness for C2 at the scenario packages: `C` provides nothing and is the
only leaf. -/
theorem find_leaves_spec_witness :
    pkgC ∈ threePkgs ∧ pkgC.provides = [] ∧ pkgC ∈ do_leaves threePkgs ∧
      do_leaves threePkgs = [pkgC] :=
  ⟨by decide, by decide,
    find_leaves_spec.2.2 threePkgs pkgC (by decide) (by decide), by decide⟩

/-! ### The closure traversal loop -/

theorem closureLoop_nil (P : List Package) (fuel : Nat) (visited : List String)
    (edges : List Edge) :
    closureLoop P fuel [] visited edges = .finished visited edges := by
  cases fuel <;> rfl

theorem closureLoop_zero (P : List Package) (p : String) (work visited : List String)
    (edges : List Edge) :
    closureLoop P 0 (p :: work) visited edges = .fuelOut := rfl

theorem closureLoop_skip (P : List Package) (fuel : Nat) (p : String)
    (work visited : List String) (edges : List Edge) (h : p ∈ visited) :
    closureLoop P (fuel + 1) (p :: work) visited edges =
      closureLoop P fuel work visited edges := by
  simp [closureLoop, h]

theorem closureLoop_keyError (P : List Package) (fuel : Nat) (p : String)
    (work visited : List String) (edges : List Edge) (h : p ∉ visited)
    (hm : package_map P p = none) :
    closureLoop P (fuel + 1) (p :: work) visited edges = .keyError := by
  simp [closureLoop, h, hm]

theorem closureLoop_expand (P : List Package) (fuel : Nat) (p : String)
    (work visited : List String) (edges : List Edge) (pkg : Package)
    (h : p ∉ visited) (hm : package_map P p = some pkg) :
    closureLoop P (fuel + 1) (p :: work) visited edges =
      closureLoop P fuel ((expandAdds P pkg).foldl setAdd work) (p :: visited)
        (edges ++ expandEdges P pkg) := by
  simp [closureLoop, h, hm]

theorem sum_filter_map_le (l : List Package) (w : Package → Nat)
    (p1 p2 : Package → Bool) (h : ∀ x, p1 x = true → p2 x = true) :
    ((l.filter p1).map w).sum ≤ ((l.filter p2).map w).sum := by
  induction l with
  | nil => simp
  | cons a l ih =>
      by_cases h1 : p1 a = true
      · rw [List.filter_cons_of_pos h1, List.filter_cons_of_pos (h a h1)]
        simp only [List.map_cons, List.sum_cons]
        omega
      · rw [List.filter_cons_of_neg (by simpa using h1)]
        by_cases h2 : p2 a = true
        · rw [List.filter_cons_of_pos h2]
          simp only [List.map_cons, List.sum_cons]
          omega
        · rw [List.filter_cons_of_neg (by simpa using h2)]
          exact ih

theorem sum_drop_aux (l : List Package) (w : Package → Nat) (visited : List String)
    (p : String) (pkg : Package) (hmem : pkg ∈ l) (hname : pkg.name = p)
    (hnv : p ∉ visited) :
    ((l.filter (fun q => decide (q.name ∉ p :: visited))).map w).sum + w pkg ≤
      ((l.filter (fun q => decide (q.name ∉ visited))).map w).sum := by
  have himp : ∀ x : Package, decide (x.name ∉ p :: visited) = true →
      decide (x.name ∉ visited) = true := by
    intro x hx
    simp only [decide_eq_true_eq, List.mem_cons] at hx ⊢
    exact fun hv => hx (Or.inr hv)
  induction l with
  | nil => cases hmem
  | cons a l ih =>
      rcases List.mem_cons.mp hmem with rfl | hmem2
      · rw [List.filter_cons_of_neg (by simp [hname]),
          List.filter_cons_of_pos (by simp [hname, hnv])]
        simp only [List.map_cons, List.sum_cons]
        have hmono := sum_filter_map_le l w _ _ himp
        omega
      · by_cases ha : a.name ∈ visited
        · rw [List.filter_cons_of_neg (by simp [ha]),
            List.filter_cons_of_neg (by simp [ha])]
          exact ih hmem2
        · by_cases hap : a.name = p
          · rw [List.filter_cons_of_neg (by simp [hap]),
              List.filter_cons_of_pos (by simpa using ha)]
            simp only [List.map_cons, List.sum_cons]
            have := ih hmem2
            omega
          · rw [List.filter_cons_of_pos (by simp [hap, ha]),
              List.filter_cons_of_pos (by simpa using ha)]
            simp only [List.map_cons, List.sum_cons]
            have := ih hmem2
            omega

theorem sumWeights_insert (P : List Package) (visited : List String) (p : String)
    (pkg : Package) (hmem : pkg ∈ P) (hname : pkg.name = p) (hnv : p ∉ visited) :
    sumWeights P (p :: visited) + weight P pkg ≤ sumWeights P visited :=
  sum_drop_aux P (weight P) visited p pkg hmem hname hnv

/-- With fuel at least the current work-set length plus the weight of every
unvisited package, and every work-set element known or already visited, the
closure loop reaches the empty work-set. -/
theorem closureLoop_complete (P : List Package) :
    ∀ (fuel : Nat) (work visited : List String) (edges : List Edge),
      (∀ x ∈ work, (package_map P x).isSome ∨ x ∈ visited) →
      work.length + sumWeights P visited ≤ fuel →
      ∃ v e, closureLoop P fuel work visited edges = .finished v e := by
  intro fuel
  induction fuel with
  | zero =>
      intro work visited edges hinv hle
      match work with
      | [] => exact ⟨visited, edges, closureLoop_nil P 0 visited edges⟩
      | p :: w => simp at hle
  | succ f ih =>
      intro work visited edges hinv hle
      match work with
      | [] => exact ⟨visited, edges, closureLoop_nil P (f + 1) visited edges⟩
      | p :: w =>
          by_cases hv : p ∈ visited
          · rw [closureLoop_skip P f p w visited edges hv]
            refine ih w visited edges (fun x hx => hinv x (List.mem_cons_of_mem _ hx)) ?_
            simp only [List.length_cons] at hle
            omega
          · have hsome : (package_map P p).isSome := by
              rcases hinv p (List.mem_cons_self _ _) with h | h
              · exact h
              · exact absurd h hv
            obtain ⟨pkg, hm⟩ := Option.isSome_iff_exists.mp hsome
            rw [closureLoop_expand P f p w visited edges pkg hv hm]
            obtain ⟨hmem, hname⟩ := package_map_some P p pkg hm
            refine ih _ _ _ ?_ ?_
            · intro x hx
              rcases (foldl_setAdd_mem _ w x).mp hx with hxw | hxa
              · rcases hinv x (List.mem_cons_of_mem _ hxw) with h | h
                · exact Or.inl h
                · exact Or.inr (List.mem_cons_of_mem _ h)
              · exact Or.inl (mem_expandAdds_isSome P pkg x hxa)
            · have h1 := foldl_setAdd_length (expandAdds P pkg) w
              have h2 := sumWeights_insert P visited p pkg hmem hname hv
              have h3 : weight P pkg = 1 + (expandAdds P pkg).length := rfl
              simp only [List.length_cons] at hle
              omega

theorem sumWeights_le_total (P : List Package) (visited : List String) :
    sumWeights P visited ≤ (P.map (weight P)).sum := by
  unfold sumWeights
  have h := sum_filter_map_le P (weight P) (fun q => decide (q.name ∉ visited))
    (fun _ => true) (fun _ _ => rfl)
  simpa using h

/-! ### Claim C9: the closure traversal terminates -/

/-- C9: for every finite package list and seed list, the closure work loop
always reaches the empty work-set: only names from the finite package universe
are ever added, the visited set guards re-expansion, and the fuel chosen by
`closureRun` is never exhausted, so the run ends in a `finished` state (in
particular neither in `fuelOut` nor in a `KeyError`). -/
theorem closure_terminates (P : List Package) (seeds : List String) :
    ∃ visited edges, closureRun P seeds = ClosureResult.finished visited edges := by
  unfold closureRun
  refine closureLoop_complete P _ _ (unresolvedSeeds P (seeds.foldl setAdd [])) [] ?_ ?_
  · intro x hx
    by_cases h : (package_map P x).isSome
    · exact Or.inl h
    · refine Or.inr (List.mem_filter.mpr ⟨hx, ?_⟩)
      rw [Option.isNone_iff_eq_none]
      exact Option.not_isSome_iff_eq_none.mp h
  · have := sumWeights_le_total P (unresolvedSeeds P (seeds.foldl setAdd []))
    unfold closureFuel
    omega

/-! ### Claim C1: closure traversal step behaviour and scenario -/

/-- C1: a popped name already visited is skipped (each package is expanded at
most once); an unvisited known package `p` emits, for every capability `c` it
requires and every provider `d` of `c`, the edge `(p, d, c)`, adds every such
`d` to the work-set, and is marked visited; seeding `{C}` over the three
scenario packages yields visited `{C, B, A}` and exactly the edges
`(C, B, label y)` and `(B, A, label x)`. -/
theorem closure_traversal_spec :
    (∀ (P : List Package) (fuel : Nat) (p : String) (work visited : List String)
        (edges : List Edge), p ∈ visited →
        closureLoop P (fuel + 1) (p :: work) visited edges =
          closureLoop P fuel work visited edges) ∧
    (∀ (P : List Package) (fuel : Nat) (p : String) (work visited : List String)
        (edges : List Edge) (pkg : Package), p ∉ visited → package_map P p = some pkg →
        closureLoop P (fuel + 1) (p :: work) visited edges =
          closureLoop P fuel ((expandAdds P pkg).foldl setAdd work) (p :: visited)
            (edges ++ pkg.requires.flatMap
              (fun c => (providers P c).map (fun d => (p, d, c))))) ∧
    closureRun threePkgs ["C"] =
      ClosureResult.finished ["A", "B", "C"] [("C", "B", "y"), ("B", "A", "x")] := by
  refine ⟨closureLoop_skip, ?_, by decide⟩
  intro P fuel p work visited edges pkg hv hm
  have hname : pkg.name = p := (package_map_some P p pkg hm).2
  rw [closureLoop_expand P fuel p work visited edges pkg hv hm]
  simp only [expandEdges, hname]

/-- Witness for C1: both step equations instantiated on the scenario packages,
with the hypotheses checked by evaluation. -/
theorem closure_traversal_spec_witness :
    closureLoop threePkgs 1 ["C"] ["C"] [] = closureLoop threePkgs 0 [] ["C"] [] ∧
    closureLoop threePkgs 1 ["C"] [] [] =
      closureLoop threePkgs 0 ((expandAdds threePkgs pkgC).foldl setAdd []) ["C"]
        ([] ++ pkgC.requires.flatMap
          (fun c => (providers threePkgs c).map (fun d => ("C", d, c)))) :=
  ⟨closure_traversal_spec.1 threePkgs 0 "C" [] ["C"] [] (by decide),
    closure_traversal_spec.2.1 threePkgs 0 "C" [] [] [] pkgC (by decide) (by decide)⟩

/-- Edges accumulated by the closure loop always have a known package as their
source: only known packages are ever expanded. -/
theorem closureLoop_edge_src (P : List Package) :
    ∀ (fuel : Nat) (work visited : List String) (edges : List Edge)
      (v : List String) (e : List Edge),
      closureLoop P fuel work visited edges = .finished v e →
      (∀ s d c, (s, d, c) ∈ edges → (package_map P s).isSome) →
      ∀ s d c, (s, d, c) ∈ e → (package_map P s).isSome := by
  intro fuel
  induction fuel with
  | zero =>
      intro work visited edges v e heq hedges
      match work with
      | [] =>
          rw [closureLoop_nil] at heq
          cases heq
          exact hedges
      | p :: w =>
          rw [closureLoop_zero] at heq
          cases heq
  | succ f ih =>
      intro work visited edges v e heq hedges
      match work with
      | [] =>
          rw [closureLoop_nil] at heq
          cases heq
          exact hedges
      | p :: w =>
          by_cases hv : p ∈ visited
          · rw [closureLoop_skip P f p w visited edges hv] at heq
            exact ih _ _ _ _ _ heq hedges
          · cases hm : package_map P p with
            | none =>
                rw [closureLoop_keyError P f p w visited edges hv hm] at heq
                cases heq
            | some pkg =>
                rw [closureLoop_expand P f p w visited edges pkg hv hm] at heq
                refine ih _ _ _ _ _ heq ?_
                intro s d c hsc
                rcases List.mem_append.mp hsc with h | h
                · exact hedges s d c h
                · unfold expandEdges at h
                  rcases List.mem_flatMap.mp h with ⟨cap, _, hmem2⟩
                  rcases List.mem_map.mp hmem2 with ⟨dd, _, heq2⟩
                  cases heq2
                  rw [(package_map_some P p pkg hm).2, hm]
                  rfl

/-! ### The bounded (one-hop) traversal -/

theorem foldl_foldl_flatMap {α β γ : Type} (g : α → List β) (f : γ → β → γ)
    (l : List α) (st : γ) :
    l.foldl (fun s c => (g c).foldl f s) st = (l.flatMap g).foldl f st := by
  induction l generalizing st with
  | nil => rfl
  | cons c l ih => simp [List.flatMap_cons, List.foldl_append, ih]

theorem dependentFold_edgeMap (interest : List String) (all : Bool) (pname : String) :
    ∀ (qs : List String) (st : L1State) (k : String),
      ((qs.foldl (dependentStep interest all pname) st).edgeMap k) =
        ((qs.filter (fun q => decide (q ∉ interest) && (q == k))).map
          (fun _ => pname)).foldl (edgeAdd all) (st.edgeMap k) := by
  intro qs
  induction qs with
  | nil => intro st k; rfl
  | cons q qs ih =>
      intro st k
      rw [List.foldl_cons]
      by_cases hq : q ∈ interest
      · have hstep : dependentStep interest all pname st q = st := by
          simp [dependentStep, hq]
        rw [hstep, List.filter_cons_of_neg (by simp [hq])]
        exact ih st k
      · by_cases hk : q = k
        · subst hk
          rw [List.filter_cons_of_pos (by simp [hq])]
          simp only [List.map_cons, List.foldl_cons]
          rw [ih]
          congr 1
          simp [dependentStep, hq]
        · rw [List.filter_cons_of_neg (by simp [hk])]
          rw [ih]
          congr 1
          simp [dependentStep, hq, Ne.symm hk]

theorem dependentFold_error (interest : List String) (all : Bool) (pname : String) :
    ∀ (qs : List String) (st : L1State),
      ((qs.foldl (dependentStep interest all pname) st).error) = st.error := by
  intro qs
  induction qs with
  | nil => intro st; rfl
  | cons q qs ih =>
      intro st
      rw [List.foldl_cons, ih]
      by_cases hq : q ∈ interest <;> simp [dependentStep, hq]

theorem dependentStep_outside_mono (interest : List String) (all : Bool)
    (pname : String) (st : L1State) (q x : String) (hx : x ∈ st.outside) :
    x ∈ (dependentStep interest all pname st q).outside := by
  by_cases hq : q ∈ interest
  · simpa [dependentStep, hq] using hx
  · simp only [dependentStep, if_neg hq]
    exact (mem_setAdd _ _ _).mpr (Or.inl hx)

theorem dependentFold_outside_mono (interest : List String) (all : Bool)
    (pname : String) :
    ∀ (qs : List String) (st : L1State) (x : String), x ∈ st.outside →
      x ∈ ((qs.foldl (dependentStep interest all pname) st).outside) := by
  intro qs
  induction qs with
  | nil => intro st x hx; exact hx
  | cons q qs ih =>
      intro st x hx
      rw [List.foldl_cons]
      exact ih _ x (dependentStep_outside_mono interest all pname st q x hx)

theorem dependentFold_outside_mem (interest : List String) (all : Bool)
    (pname : String) :
    ∀ (qs : List String) (st : L1State) (q : String), q ∈ qs → q ∉ interest →
      q ∈ ((qs.foldl (dependentStep interest all pname) st).outside) := by
  intro qs
  induction qs with
  | nil => intro st q hq; cases hq
  | cons q0 qs ih =>
      intro st q hq hqi
      rw [List.foldl_cons]
      rcases List.mem_cons.mp hq with rfl | hq2
      · apply dependentFold_outside_mono
        simp only [dependentStep, if_neg hqi]
        exact (mem_setAdd _ _ _).mpr (Or.inr rfl)
      · exact ih _ q hq2 hqi

theorem dependentStep_outside_inv (interest : List String) (all : Bool)
    (pname : String) (st : L1State) (q : String)
    (h : ∀ x ∈ st.outside, x ∉ interest) :
    ∀ x ∈ (dependentStep interest all pname st q).outside, x ∉ interest := by
  intro x hx
  by_cases hq : q ∈ interest
  · rw [show dependentStep interest all pname st q = st by simp [dependentStep, hq]] at hx
    exact h x hx
  · simp only [dependentStep, if_neg hq] at hx
    rcases (mem_setAdd _ _ _).mp hx with hx2 | rfl
    · exact h x hx2
    · exact hq

theorem dependentFold_outside_inv (interest : List String) (all : Bool)
    (pname : String) :
    ∀ (qs : List String) (st : L1State), (∀ x ∈ st.outside, x ∉ interest) →
      ∀ x ∈ ((qs.foldl (dependentStep interest all pname) st).outside), x ∉ interest := by
  intro qs
  induction qs with
  | nil => intro st h; exact h
  | cons q qs ih =>
      intro st h
      rw [List.foldl_cons]
      exact ih _ (dependentStep_outside_inv interest all pname st q h)

theorem guardFold_mono (interest : List String) :
    ∀ (deps acc : List String) (x : String), x ∈ acc →
      x ∈ deps.foldl (fun o d => if d ∈ interest then o else setAdd o d) acc := by
  intro deps
  induction deps with
  | nil => intro acc x hx; exact hx
  | cons d deps ih =>
      intro acc x hx
      rw [List.foldl_cons]
      by_cases hd : d ∈ interest
      · rw [if_pos hd]
        exact ih acc x hx
      · rw [if_neg hd]
        exact ih _ x ((mem_setAdd _ _ _).mpr (Or.inl hx))

theorem guardFold_mem (interest : List String) :
    ∀ (deps acc : List String) (x : String), x ∈ deps → x ∉ interest →
      x ∈ deps.foldl (fun o d => if d ∈ interest then o else setAdd o d) acc := by
  intro deps
  induction deps with
  | nil => intro acc x hx; cases hx
  | cons d deps ih =>
      intro acc x hx hxi
      rw [List.foldl_cons]
      rcases List.mem_cons.mp hx with rfl | hx2
      · rw [if_neg hxi]
        exact guardFold_mono interest deps _ x ((mem_setAdd _ _ _).mpr (Or.inr rfl))
      · by_cases hd : d ∈ interest
        · rw [if_pos hd]
          exact ih acc x hx2 hxi
        · rw [if_neg hd]
          exact ih _ x hx2 hxi

theorem guardFold_inv (interest : List String) :
    ∀ (deps acc : List String), (∀ y ∈ acc, y ∉ interest) →
      ∀ y ∈ deps.foldl (fun o d => if d ∈ interest then o else setAdd o d) acc,
        y ∉ interest := by
  intro deps
  induction deps with
  | nil => intro acc h; exact h
  | cons d deps ih =>
      intro acc h
      rw [List.foldl_cons]
      by_cases hd : d ∈ interest
      · rw [if_pos hd]
        exact ih acc h
      · rw [if_neg hd]
        refine ih _ ?_
        intro y hy
        rcases (mem_setAdd _ _ _).mp hy with hy2 | rfl
        · exact h y hy2
        · exact hd

theorem level1Package_none (P : List Package) (interest : List String) (all : Bool)
    (st : L1State) (pname : String) (hm : package_map P pname = none) :
    level1Package P interest all st pname = { st with error := setAdd st.error pname } := by
  simp [level1Package, hm]

theorem level1Package_error_some (P : List Package) (interest : List String)
    (all : Bool) (st : L1State) (pname : String) (pkg : Package)
    (hm : package_map P pname = some pkg) :
    (level1Package P interest all st pname).error = st.error := by
  simp only [level1Package, hm]
  rw [foldl_foldl_flatMap, dependentFold_error]

theorem depContrib_nil_of_mem_interest (P : List Package) (interest : List String)
    (pname k : String) (hk : k ∈ interest) :
    depContrib P interest pname k = [] := by
  unfold depContrib
  cases hm : package_map P pname with
  | none => rfl
  | some pkg =>
      simp only [List.map_eq_nil_iff, List.filter_eq_nil_iff, Bool.and_eq_true,
        decide_eq_true_eq, beq_iff_eq, not_and, List.mem_flatMap]
      rintro a ⟨x, hx, ha⟩ hni rfl
      exact absurd hk hni

theorem level1Package_edgeMap_self (P : List Package) (interest : List String)
    (all : Bool) (st : L1State) (pname : String) (hp : pname ∈ interest) :
    (level1Package P interest all st pname).edgeMap pname =
      (depAdds P pname).foldl (edgeAdd all) (st.edgeMap pname) := by
  cases hm : package_map P pname with
  | none => simp [level1Package, hm, depAdds]
  | some pkg =>
      simp only [level1Package, hm]
      rw [foldl_foldl_flatMap, dependentFold_edgeMap]
      rw [List.filter_eq_nil_iff.mpr, List.map_nil, List.foldl_nil]
      · simp [depAdds, hm]
      · intro a _
        simp only [Bool.and_eq_true, decide_eq_true_eq, beq_iff_eq, not_and]
        rintro hni rfl
        exact absurd hp hni

theorem level1Package_edgeMap_other (P : List Package) (interest : List String)
    (all : Bool) (st : L1State) (pname k : String) (hk : k ≠ pname) :
    (level1Package P interest all st pname).edgeMap k =
      (depContrib P interest pname k).foldl (edgeAdd all) (st.edgeMap k) := by
  cases hm : package_map P pname with
  | none => simp [level1Package, hm, depContrib]
  | some pkg =>
      simp only [level1Package, hm]
      rw [foldl_foldl_flatMap, dependentFold_edgeMap]
      simp [depContrib, hm, hk]

theorem level1Package_outside_mono (P : List Package) (interest : List String)
    (all : Bool) (st : L1State) (pname x : String) (hx : x ∈ st.outside) :
    x ∈ (level1Package P interest all st pname).outside := by
  cases hm : package_map P pname with
  | none => simpa [level1Package, hm] using hx
  | some pkg =>
      simp only [level1Package, hm]
      rw [foldl_foldl_flatMap]
      apply dependentFold_outside_mono
      exact guardFold_mono interest _ _ x hx

theorem level1Package_outside_dep (P : List Package) (interest : List String)
    (all : Bool) (st : L1State) (pname : String) (pkg : Package)
    (hm : package_map P pname = some pkg) (d : String)
    (hd : d ∈ expandAdds P pkg) (hdi : d ∉ interest) :
    d ∈ (level1Package P interest all st pname).outside := by
  simp only [level1Package, hm]
  rw [foldl_foldl_flatMap]
  apply dependentFold_outside_mono
  refine guardFold_mem interest _ _ d ?_ hdi
  exact (foldl_edgeAdd_mem all _ _ d).mpr (Or.inr hd)

theorem level1Package_outside_dept (P : List Package) (interest : List String)
    (all : Bool) (st : L1State) (pname : String) (pkg : Package)
    (hm : package_map P pname = some pkg) (q : String)
    (hq : q ∈ pkg.provides.flatMap (requirers P)) (hqi : q ∉ interest) :
    q ∈ (level1Package P interest all st pname).outside := by
  simp only [level1Package, hm]
  rw [foldl_foldl_flatMap]
  exact dependentFold_outside_mem interest all pname _ _ q hq hqi

theorem level1Package_outside_inv (P : List Package) (interest : List String)
    (all : Bool) (st : L1State) (pname : String)
    (h : ∀ x ∈ st.outside, x ∉ interest) :
    ∀ x ∈ (level1Package P interest all st pname).outside, x ∉ interest := by
  cases hm : package_map P pname with
  | none =>
      intro x hx
      rw [level1Package_none P interest all st pname hm] at hx
      exact h x hx
  | some pkg =>
      simp only [level1Package, hm]
      rw [foldl_foldl_flatMap]
      exact dependentFold_outside_inv interest all pname _ _ (guardFold_inv interest _ _ h)

theorem level1Package_error_mem (P : List Package) (interest : List String)
    (all : Bool) (st : L1State) (pname x : String) :
    x ∈ (level1Package P interest all st pname).error ↔
      x ∈ st.error ∨ (x = pname ∧ package_map P pname = none) := by
  cases hm : package_map P pname with
  | none =>
      rw [level1Package_none P interest all st pname hm]
      simp only [mem_setAdd, hm, and_true]
  | some pkg =>
      rw [level1Package_error_some P interest all st pname pkg hm]
      simp [hm]

theorem foldl_contrib_nil (all : Bool) (f : String → List String) (l : List String) :
    ∀ (acc : List String), (∀ m ∈ l, f m = []) →
      l.foldl (fun acc n => (f n).foldl (edgeAdd all) acc) acc = acc := by
  induction l with
  | nil => intro acc _; rfl
  | cons n l ih =>
      intro acc h
      simp only [List.foldl_cons]
      rw [h n (List.mem_cons_self _ _), List.foldl_nil]
      exact ih acc (fun m hm => h m (List.mem_cons_of_mem _ hm))

theorem foldl_contrib_mem (all : Bool) (f : String → List String) (l : List String) :
    ∀ (acc : List String) (x : String),
      x ∈ l.foldl (fun acc n => (f n).foldl (edgeAdd all) acc) acc ↔
        x ∈ acc ∨ ∃ n ∈ l, x ∈ f n := by
  induction l with
  | nil => intro acc x; simp
  | cons n l ih =>
      intro acc x
      simp only [List.foldl_cons]
      rw [ih]
      simp only [foldl_edgeAdd_mem, List.mem_cons]
      constructor
      · rintro ((h | h) | ⟨m, hm, hfm⟩)
        · exact Or.inl h
        · exact Or.inr ⟨n, Or.inl rfl, h⟩
        · exact Or.inr ⟨m, Or.inr hm, hfm⟩
      · rintro (h | ⟨m, (rfl | hm), hfm⟩)
        · exact Or.inl (Or.inl h)
        · exact Or.inl (Or.inr hfm)
        · exact Or.inr ⟨m, hm, hfm⟩

theorem foldl_contrib_nodup (f : String → List String) (l : List String) :
    ∀ (acc : List String), acc.Nodup →
      (l.foldl (fun acc n => (f n).foldl (edgeAdd false) acc) acc).Nodup := by
  induction l with
  | nil => intro acc h; exact h
  | cons n l ih =>
      intro acc h
      simp only [List.foldl_cons]
      exact ih _ (foldl_edgeAdd_false_nodup _ _ h)

theorem foldl_contrib_all (f : String → List String) (l : List String) :
    ∀ (acc : List String),
      l.foldl (fun acc n => (f n).foldl (edgeAdd true) acc) acc = acc ++ l.flatMap f := by
  induction l with
  | nil => intro acc; simp
  | cons n l ih =>
      intro acc
      simp only [List.foldl_cons]
      rw [foldl_edgeAdd_true, ih, List.flatMap_cons, List.append_assoc]

theorem interestList_nodup (P : List Package) (names : List String) :
    (interestList P names).Nodup := by
  unfold interestList
  by_cases h : names = []
  · rw [if_pos h]
    exact foldl_setAdd_nodup _ _ List.nodup_nil
  · rw [if_neg h]
    exact foldl_setAdd_nodup _ _ List.nodup_nil

/-- Master characterization of the `edges` map built by the bounded traversal:
an interest-set name holds exactly its own accumulated dependency list, and any
other name holds exactly the contributions of the dependents passes, in
processing order. -/
theorem level1_foldl_edgeMap (P : List Package) (interest : List String) (all : Bool) :
    ∀ (l : List String) (st : L1State), (∀ x ∈ l, x ∈ interest) → l.Nodup →
      ∀ k, ((l.foldl (level1Package P interest all) st).edgeMap k) =
        if k ∈ l then (depAdds P k).foldl (edgeAdd all) (st.edgeMap k)
        else l.foldl (fun acc n => (depContrib P interest n k).foldl (edgeAdd all) acc)
          (st.edgeMap k) := by
  intro l
  induction l with
  | nil =>
      intro st _ _ k
      simp
  | cons n l ih =>
      intro st hsub hnodup k
      have hn : n ∈ interest := hsub n (List.mem_cons_self _ _)
      have hnotin : n ∉ l := (List.nodup_cons.mp hnodup).1
      rw [List.foldl_cons,
        ih (level1Package P interest all st n)
          (fun x hx => hsub x (List.mem_cons_of_mem _ hx))
          (List.nodup_cons.mp hnodup).2 k]
      by_cases hkn : k = n
      · subst hkn
        rw [if_neg hnotin, if_pos (List.mem_cons_self _ _)]
        rw [level1Package_edgeMap_self P interest all st k hn]
        exact foldl_contrib_nil all _ l _
          (fun m _ => depContrib_nil_of_mem_interest P interest m k hn)
      · by_cases hkl : k ∈ l
        · rw [if_pos hkl, if_pos (List.mem_cons_of_mem _ hkl)]
          rw [level1Package_edgeMap_other P interest all st n k hkn,
            depContrib_nil_of_mem_interest P interest n k
              (hsub k (List.mem_cons_of_mem _ hkl)),
            List.foldl_nil]
        · rw [if_neg hkl, if_neg (by simp [hkn, hkl]), List.foldl_cons]
          simp only [level1Package_edgeMap_other P interest all st n k hkn]

theorem level1_foldl_outside_mono (P : List Package) (interest : List String)
    (all : Bool) :
    ∀ (l : List String) (st : L1State) (x : String), x ∈ st.outside →
      x ∈ (l.foldl (level1Package P interest all) st).outside := by
  intro l
  induction l with
  | nil => intro st x hx; exact hx
  | cons n l ih =>
      intro st x hx
      rw [List.foldl_cons]
      exact ih _ x (level1Package_outside_mono P interest all st n x hx)

theorem level1_foldl_outside_inv (P : List Package) (interest : List String)
    (all : Bool) :
    ∀ (l : List String) (st : L1State), (∀ x ∈ st.outside, x ∉ interest) →
      ∀ x ∈ (l.foldl (level1Package P interest all) st).outside, x ∉ interest := by
  intro l
  induction l with
  | nil => intro st h; exact h
  | cons n l ih =>
      intro st h
      rw [List.foldl_cons]
      exact ih _ (level1Package_outside_inv P interest all st n h)

theorem level1_foldl_error_mem (P : List Package) (interest : List String)
    (all : Bool) :
    ∀ (l : List String) (st : L1State) (x : String),
      x ∈ (l.foldl (level1Package P interest all) st).error ↔
        x ∈ st.error ∨ ∃ n ∈ l, n = x ∧ package_map P n = none := by
  intro l
  induction l with
  | nil => intro st x; simp
  | cons n l ih =>
      intro st x
      rw [List.foldl_cons, ih]
      rw [level1Package_error_mem]
      simp only [List.mem_cons]
      constructor
      · rintro ((h | ⟨rfl, hnone⟩) | ⟨m, hm, rfl, hnone⟩)
        · exact Or.inl h
        · exact Or.inr ⟨x, Or.inl rfl, rfl, hnone⟩
        · exact Or.inr ⟨m, Or.inr hm, rfl, hnone⟩
      · rintro (h | ⟨m, (rfl | hm), rfl, hnone⟩)
        · exact Or.inl (Or.inl h)
        · exact Or.inl (Or.inr ⟨rfl, hnone⟩)
        · exact Or.inr ⟨m, hm, rfl, hnone⟩

theorem level1_foldl_outside_dep (P : List Package) (interest : List String)
    (all : Bool) (l : List String) (st : L1State) (p : String) (pkg : Package)
    (hp : p ∈ l) (hm : package_map P p = some pkg) (d : String)
    (hd : d ∈ expandAdds P pkg) (hdi : d ∉ interest) :
    d ∈ (l.foldl (level1Package P interest all) st).outside := by
  obtain ⟨l1, l2, rfl⟩ := List.append_of_mem hp
  rw [List.foldl_append, List.foldl_cons]
  exact level1_foldl_outside_mono P interest all l2 _ d
    (level1Package_outside_dep P interest all _ p pkg hm d hd hdi)

theorem level1_foldl_outside_dept (P : List Package) (interest : List String)
    (all : Bool) (l : List String) (st : L1State) (p : String) (pkg : Package)
    (hp : p ∈ l) (hm : package_map P p = some pkg) (q : String)
    (hq : q ∈ pkg.provides.flatMap (requirers P)) (hqi : q ∉ interest) :
    q ∈ (l.foldl (level1Package P interest all) st).outside := by
  obtain ⟨l1, l2, rfl⟩ := List.append_of_mem hp
  rw [List.foldl_append, List.foldl_cons]
  exact level1_foldl_outside_mono P interest all l2 _ q
    (level1Package_outside_dept P interest all _ p pkg hm q hq hqi)

/-- Membership characterization of the final `edges` map of the bounded
traversal. -/
theorem level1_edgeMap_mem_iff (P : List Package) (names : List String)
    (all : Bool) (k x : String) :
    x ∈ (do_level1_graph P names all).edgeMap k ↔
      (k ∈ interestList P names ∧ x ∈ depAdds P k) ∨
      (k ∉ interestList P names ∧
        ∃ n ∈ interestList P names, x ∈ depContrib P (interestList P names) n k) := by
  unfold do_level1_graph
  rw [level1_foldl_edgeMap P (interestList P names) all (interestList P names)
    ⟨[], [], fun _ => []⟩ (fun _ h => h) (interestList_nodup P names) k]
  by_cases hk : k ∈ interestList P names
  · rw [if_pos hk]
    rw [foldl_edgeAdd_mem]
    simp [hk]
  · rw [if_neg hk]
    rw [foldl_contrib_mem]
    simp [hk]

theorem level1_edgeMap_mem_isSome (P : List Package) (names : List String)
    (all : Bool) (k x : String)
    (hx : x ∈ (do_level1_graph P names all).edgeMap k) :
    (package_map P x).isSome := by
  rcases (level1_edgeMap_mem_iff P names all k x).mp hx with ⟨_, h⟩ | ⟨_, n, _, h⟩
  · unfold depAdds at h
    cases hm : package_map P k with
    | none => rw [hm] at h; cases h
    | some pkg =>
        rw [hm] at h
        exact mem_expandAdds_isSome P pkg x h
  · unfold depContrib at h
    cases hm : package_map P n with
    | none => rw [hm] at h; cases h
    | some pkg =>
        rw [hm] at h
        rcases List.mem_map.mp h with ⟨a, _, rfl⟩
        rw [hm]
        rfl

theorem count_flatMap_sum (l : List String) (f : String → List String) (x : String) :
    (l.flatMap f).count x = (l.map (fun c => (f c).count x)).sum := by
  induction l with
  | nil => simp
  | cons c l ih => simp [List.flatMap_cons, List.count_append, ih]

theorem count_flatMap_zero (l : List String) (f : String → List String) (x : String)
    (h : ∀ n ∈ l, (f n).count x = 0) : (l.flatMap f).count x = 0 := by
  induction l with
  | nil => simp
  | cons n l ih =>
      rw [List.flatMap_cons, List.count_append, h n (List.mem_cons_self _ _),
        ih (fun m hm => h m (List.mem_cons_of_mem _ hm))]

theorem count_flatMap_single (l : List String) (f : String → List String) (p : String)
    (hnd : l.Nodup) (hp : p ∈ l)
    (hother : ∀ n ∈ l, n ≠ p → (f n).count p = 0) :
    (l.flatMap f).count p = (f p).count p := by
  induction l with
  | nil => cases hp
  | cons n l ih =>
      rw [List.flatMap_cons, List.count_append]
      rcases List.mem_cons.mp hp with rfl | hp2
      · rw [count_flatMap_zero l f p
          (fun m hm => hother m (List.mem_cons_of_mem _ hm)
            (fun he => (List.nodup_cons.mp hnd).1 (by rw [← he]; exact hm)))]
        rfl
      · rw [hother n (List.mem_cons_self _ _)
          (fun he => (List.nodup_cons.mp hnd).1 (by rw [he]; exact hp2))]
        rw [Nat.zero_add]
        exact ih (List.nodup_cons.mp hnd).2 hp2
          (fun m hm hne => hother m (List.mem_cons_of_mem _ hm) hne)

theorem depContrib_count_ne (P : List Package) (interest : List String)
    (n k p : String) (hne : n ≠ p) : (depContrib P interest n k).count p = 0 := by
  unfold depContrib
  cases hm : package_map P n with
  | none => simp
  | some pkg =>
      rw [List.count_eq_zero]
      intro hmem
      rcases List.mem_map.mp hmem with ⟨a, _, heq⟩
      exact hne heq

theorem depContrib_count_self (P : List Package) (interest : List String)
    (p q : String) (pkg : Package) (hm : package_map P p = some pkg)
    (hq : q ∉ interest) :
    (depContrib P interest p q).count p =
      (pkg.provides.map (fun c => (requirers P c).count q)).sum := by
  unfold depContrib
  simp only [hm]
  rw [List.map_const', List.count_replicate_self]
  have hcongr : ∀ x ∈ pkg.provides.flatMap (requirers P),
      (decide (x ∉ interest) && (x == q)) = (x == q) := by
    intro x _
    by_cases hxq : x = q
    · subst hxq
      simp [hq]
    · simp [hxq]
  rw [List.filter_congr hcongr, ← List.countP_eq_length_filter, ← List.count_eq_countP]
  exact count_flatMap_sum pkg.provides (requirers P) q

/-! ### Claim C4: bounded-traversal edge-counting policy -/

/-- C4: in deduplicated mode every recorded destination list is duplicate-free
(at most one edge per ordered source/destination pair, however many
capabilities connect the two packages); in all-edges mode a known interest
package's list is exactly one entry per (capability, provider occurrence) the
resolution identifies, and a name outside the interest set records one copy of
an interest package `p` per (capability `p` provides, occurrence among that
capability's requirers) pair. -/
theorem level1_edge_policy_spec :
    (∀ (P : List Package) (names : List String) (k : String),
        ((do_level1_graph P names false).edgeMap k).Nodup) ∧
    (∀ (P : List Package) (names : List String) (p : String) (pkg : Package),
        p ∈ interestList P names → package_map P p = some pkg →
        (do_level1_graph P names true).edgeMap p = pkg.requires.flatMap (providers P)) ∧
    (∀ (P : List Package) (names : List String) (p q : String) (pkg : Package),
        p ∈ interestList P names → package_map P p = some pkg →
        q ∉ interestList P names →
        ((do_level1_graph P names true).edgeMap q).count p =
          (pkg.provides.map (fun c => (requirers P c).count q)).sum) := by
  refine ⟨?_, ?_, ?_⟩
  · intro P names k
    unfold do_level1_graph
    rw [level1_foldl_edgeMap P (interestList P names) false (interestList P names)
      ⟨[], [], fun _ => []⟩ (fun _ h => h) (interestList_nodup P names) k]
    by_cases hk : k ∈ interestList P names
    · rw [if_pos hk]
      exact foldl_edgeAdd_false_nodup _ _ List.nodup_nil
    · rw [if_neg hk]
      exact foldl_contrib_nodup _ _ _ List.nodup_nil
  · intro P names p pkg hp hm
    unfold do_level1_graph
    rw [level1_foldl_edgeMap P (interestList P names) true (interestList P names)
      ⟨[], [], fun _ => []⟩ (fun _ h => h) (interestList_nodup P names) p]
    rw [if_pos hp, foldl_edgeAdd_true]
    simp [depAdds, hm, expandAdds]
  · intro P names p q pkg hp hm hq
    unfold do_level1_graph
    rw [level1_foldl_edgeMap P (interestList P names) true (interestList P names)
      ⟨[], [], fun _ => []⟩ (fun _ h => h) (interestList_nodup P names) q]
    rw [if_neg hq, foldl_contrib_all, List.nil_append]
    rw [count_flatMap_single (interestList P names) _ p (interestList_nodup P names) hp
      (fun n _ hne => depContrib_count_ne P (interestList P names) n q p hne)]
    exact depContrib_count_self P (interestList P names) p q pkg hm hq

/-- Witness for C4 on the scenario packages with interest `{B}`: the
deduplicated edge list of `C`, the all-edges dependency list of `B`, and the
all-edges count of edge `(C, B)`. -/
theorem level1_edge_policy_spec_witness :
    ((do_level1_graph threePkgs ["B"] false).edgeMap "C").Nodup ∧
    (do_level1_graph threePkgs ["B"] true).edgeMap "B" =
      pkgB.requires.flatMap (providers threePkgs) ∧
    ((do_level1_graph threePkgs ["B"] true).edgeMap "C").count "B" =
      (pkgB.provides.map (fun c => (requirers threePkgs c).count "C")).sum :=
  ⟨level1_edge_policy_spec.1 threePkgs ["B"] "C",
    level1_edge_policy_spec.2.1 threePkgs ["B"] "B" pkgB (by decide) (by decide),
    level1_edge_policy_spec.2.2 threePkgs ["B"] "B" "C" pkgB (by decide) (by decide)
      (by decide)⟩

/-! ### Claim C3: bounded traversal classification -/

theorem depContrib_threeB (s t : String) :
    t ∈ depContrib threePkgs ["B"] "B" s ↔ t = "B" ∧ s = "C" := by
  have hpm : package_map threePkgs "B" = some pkgB := by decide
  have hry : requirers threePkgs "y" = ["C"] := by decide
  unfold depContrib
  rw [hpm]
  simp only [List.mem_map, List.mem_filter, List.mem_flatMap, Bool.and_eq_true,
    decide_eq_true_eq, beq_iff_eq]
  constructor
  · rintro ⟨a, ⟨⟨c, hc, ha⟩, hni, rfl⟩, rfl⟩
    simp only [pkgB, List.mem_singleton] at hc
    subst hc
    rw [hry] at ha
    simp only [List.mem_singleton] at ha
    subst ha
    exact ⟨rfl, rfl⟩
  · rintro ⟨rfl, rfl⟩
    refine ⟨"C", ⟨⟨"y", ?_, ?_⟩, ?_, rfl⟩, rfl⟩
    · simp [pkgB]
    · rw [hry]
      simp
    · decide

/-- C3: every dependency of a known interest package lying outside the
interest set becomes an outside node with an edge from that package, and every
dependent of a capability an interest package provides that lies outside the
interest set becomes an outside node with an edge towards that package; with
interest `{B}` over the scenario packages in deduplicated mode the outside
nodes are exactly `A` and `C`, no name is in error, and the edges are exactly
`(B, A)` and `(C, B)`. -/
theorem level1_classification_spec :
    (∀ (P : List Package) (names : List String) (all : Bool) (p : String)
        (pkg : Package), p ∈ interestList P names → package_map P p = some pkg →
        (∀ d ∈ expandAdds P pkg, d ∉ interestList P names →
          d ∈ (do_level1_graph P names all).outside ∧
            d ∈ (do_level1_graph P names all).edgeMap p) ∧
        (∀ c ∈ pkg.provides, ∀ q ∈ requirers P c, q ∉ interestList P names →
          q ∈ (do_level1_graph P names all).outside ∧
            p ∈ (do_level1_graph P names all).edgeMap q)) ∧
    ((do_level1_graph threePkgs ["B"] false).outside = ["A", "C"] ∧
      (do_level1_graph threePkgs ["B"] false).error = [] ∧
      ∀ s t : String, t ∈ (do_level1_graph threePkgs ["B"] false).edgeMap s ↔
        (s = "B" ∧ t = "A") ∨ (s = "C" ∧ t = "B")) := by
  constructor
  · intro P names all p pkg hp hm
    constructor
    · intro d hd hdi
      constructor
      · unfold do_level1_graph
        exact level1_foldl_outside_dep P _ all _ _ p pkg hp hm d hd hdi
      · exact (level1_edgeMap_mem_iff P names all p d).mpr
          (Or.inl ⟨hp, by unfold depAdds; rw [hm]; exact hd⟩)
    · intro c hc q hq hqi
      constructor
      · unfold do_level1_graph
        exact level1_foldl_outside_dept P _ all _ _ p pkg hp hm q
          (List.mem_flatMap.mpr ⟨c, hc, hq⟩) hqi
      · refine (level1_edgeMap_mem_iff P names all q p).mpr (Or.inr ⟨hqi, p, hp, ?_⟩)
        unfold depContrib
        rw [hm]
        refine List.mem_map.mpr
          ⟨q, List.mem_filter.mpr ⟨List.mem_flatMap.mpr ⟨c, hc, hq⟩, ?_⟩, rfl⟩
        simp [hqi]
  · refine ⟨by decide, by decide, ?_⟩
    intro s t
    rw [level1_edgeMap_mem_iff]
    have hint : interestList threePkgs ["B"] = ["B"] := by decide
    rw [hint]
    by_cases hs : s = "B"
    · subst hs
      have hda : depAdds threePkgs "B" = ["A"] := by decide
      have hbc : ("B" : String) ≠ "C" := by decide
      simp [hda, hbc]
    · have hemem : s ∉ (["B"] : List String) := by simpa using hs
      simp only [List.mem_singleton, hs, false_and, false_or, hemem,
        not_false_iff, true_and, List.mem_cons, List.not_mem_nil, or_false,
        exists_eq_left]
      rw [depContrib_threeB]
      constructor
      · rintro ⟨rfl, rfl⟩
        exact ⟨rfl, rfl⟩
      · rintro ⟨rfl, rfl⟩
        exact ⟨rfl, rfl⟩

/-- Witness for C3: the classification instantiated on the scenario packages
with interest `{B}`: the dependency `A` and the dependent `C`. -/
theorem level1_classification_spec_witness :
    ("A" ∈ (do_level1_graph threePkgs ["B"] false).outside ∧
      "A" ∈ (do_level1_graph threePkgs ["B"] false).edgeMap "B") ∧
    ("C" ∈ (do_level1_graph threePkgs ["B"] false).outside ∧
      "B" ∈ (do_level1_graph threePkgs ["B"] false).edgeMap "C") :=
  ⟨(level1_classification_spec.1 threePkgs ["B"] false "B" pkgB (by decide)
      (by decide)).1 "A" (by decide) (by decide),
    (level1_classification_spec.1 threePkgs ["B"] false "B" pkgB (by decide)
      (by decide)).2 "y" (by decide) "C" (by decide) (by decide)⟩

/-! ### Claim C6: unresolved package names are never fatal -/

/-- C6: an unknown seed is listed as an unresolved (red) node, pre-visited and
never expanded — seeding only such a name yields exactly that visited set and
zero edges; every edge a closure run emits has a known source, so an unknown
name is never expanded; and in bounded mode an unknown interest name becomes
an error node whose edge list stays empty and which appears in no edge list. -/
theorem unresolved_names_spec :
    (∀ (P : List Package) (n : String), package_map P n = none →
        unresolvedSeeds P ([n].foldl setAdd []) = [n] ∧
        closureRun P [n] = ClosureResult.finished [n] []) ∧
    (∀ (P : List Package) (seeds : List String) (v : List String) (e : List Edge),
        closureRun P seeds = ClosureResult.finished v e →
        ∀ s d c, (s, d, c) ∈ e → (package_map P s).isSome) ∧
    (∀ (P : List Package) (names : List String) (all : Bool) (n : String),
        n ∈ interestList P names → package_map P n = none →
        n ∈ (do_level1_graph P names all).error ∧
        (do_level1_graph P names all).edgeMap n = [] ∧
        ∀ k, n ∉ (do_level1_graph P names all).edgeMap k) := by
  refine ⟨?_, ?_, ?_⟩
  · intro P n hm
    have hwork : ([n] : List String).foldl setAdd [] = [n] := by simp [setAdd]
    have hseeds : unresolvedSeeds P [n] = [n] := by
      unfold unresolvedSeeds
      simp [hm]
    refine ⟨by rw [hwork]; exact hseeds, ?_⟩
    have hfuel : closureFuel P [n] = (P.map (weight P)).sum + 1 := by
      simp [closureFuel, Nat.add_comm]
    have hloop : closureLoop P (closureFuel P (([n] : List String).foldl setAdd []))
        (([n] : List String).foldl setAdd [])
        (unresolvedSeeds P (([n] : List String).foldl setAdd [])) [] =
        ClosureResult.finished [n] [] := by
      rw [hwork, hseeds, hfuel,
        closureLoop_skip P _ n [] [n] [] (by simp), closureLoop_nil]
    exact hloop
  · intro P seeds v e heq
    unfold closureRun at heq
    exact closureLoop_edge_src P _ _ _ _ _ _ heq (by intro s d c h; cases h)
  · intro P names all n hn hm
    refine ⟨?_, ?_, ?_⟩
    · unfold do_level1_graph
      rw [level1_foldl_error_mem]
      exact Or.inr ⟨n, hn, rfl, hm⟩
    · unfold do_level1_graph
      rw [level1_foldl_edgeMap P (interestList P names) all (interestList P names)
        ⟨[], [], fun _ => []⟩ (fun _ h => h) (interestList_nodup P names) n]
      rw [if_pos hn]
      simp [depAdds, hm]
    · intro k hk
      have h := level1_edgeMap_mem_isSome P names all k n hk
      rw [hm] at h
      cases h

/-- Witness for C6 at the scenario packages with the unknown name `ghost`. -/
theorem unresolved_names_spec_witness :
    package_map threePkgs "ghost" = none ∧
    closureRun threePkgs ["ghost"] = ClosureResult.finished ["ghost"] [] ∧
    "ghost" ∈ (do_level1_graph threePkgs ["ghost"] false).error :=
  ⟨by decide, (unresolved_names_spec.1 threePkgs "ghost" (by decide)).2,
    (unresolved_names_spec.2.2 threePkgs ["ghost"] false "ghost" (by decide)
      (by decide)).1⟩

/-! ### Claim C10: nodes absent from the bounded-mode rendering -/

/-- C10 counterexample: over `twoPkgs` with interest `{A, B}`, package `A` is
known, has no dependencies and no dependent outside the interest set (its only
dependent `B` is inside), yet `A` is not absent from the rendered output: the
edge `(B, A)` is printed because inside dependents still produce dependency
edges.  This refutes the claim that no dependencies and no outside dependents
suffice for absence. -/
theorem level1_absence_counterexample :
    package_map twoPkgs "A" = some ⟨"A", "/pkg/A", ["x"], []⟩ ∧
    "A" ∈ interestList twoPkgs ["A", "B"] ∧
    expandAdds twoPkgs ⟨"A", "/pkg/A", ["x"], []⟩ = [] ∧
    (∀ c ∈ ["x"], ∀ q ∈ requirers twoPkgs c, q ∈ interestList twoPkgs ["A", "B"]) ∧
    "A" ∈ (do_level1_graph twoPkgs ["A", "B"] false).edgeMap "B" := by
  decide

/-- C10 (amended): in bounded mode only error and outside nodes receive node
statements and interest packages appear only as endpoints of printed edges, so
a known interest package with no dependencies and no dependents at all among
the discovered packages (whether inside or outside the interest set) is
entirely absent from the rendered output: it is not an error node, not an
outside node, its own edge list is empty and it appears in no edge list. -/
theorem level1_absence_spec (P : List Package) (names : List String) (all : Bool)
    (n : String) (pkg : Package) (hn : n ∈ interestList P names)
    (hm : package_map P n = some pkg)
    (hnodep : pkg.requires.flatMap (providers P) = [])
    (hnodept : ∀ p ∈ P, p.name = n → ∀ c ∈ p.provides, requirers P c = []) :
    n ∉ (do_level1_graph P names all).error ∧
    n ∉ (do_level1_graph P names all).outside ∧
    (do_level1_graph P names all).edgeMap n = [] ∧
    ∀ k, n ∉ (do_level1_graph P names all).edgeMap k := by
  refine ⟨?_, ?_, ?_, ?_⟩
  · intro hmem
    unfold do_level1_graph at hmem
    rw [level1_foldl_error_mem] at hmem
    rcases hmem with h | ⟨m, _, rfl, hnone⟩
    · cases h
    · rw [hm] at hnone
      cases hnone
  · intro hmem
    unfold do_level1_graph at hmem
    exact level1_foldl_outside_inv P (interestList P names) all (interestList P names)
      ⟨[], [], fun _ => []⟩ (by intro x hx; cases hx) n hmem hn
  · unfold do_level1_graph
    rw [level1_foldl_edgeMap P (interestList P names) all (interestList P names)
      ⟨[], [], fun _ => []⟩ (fun _ h => h) (interestList_nodup P names) n]
    rw [if_pos hn]
    simp [depAdds, hm, expandAdds, hnodep]
  · intro k hk
    rcases (level1_edgeMap_mem_iff P names all k n).mp hk with ⟨_, hdep⟩ | ⟨_, m, _, hcon⟩
    · unfold depAdds at hdep
      cases hmk : package_map P k with
      | none => rw [hmk] at hdep; cases hdep
      | some pkgK =>
          rw [hmk] at hdep
          unfold expandAdds at hdep
          rcases List.mem_flatMap.mp hdep with ⟨c, hc, hprov⟩
          rcases (mem_providers P c n).mp hprov with ⟨p, hpP, hpname, hcprov⟩
          have hreq : requirers P c = [] := hnodept p hpP hpname c hcprov
          have hkmem : k ∈ requirers P c := by
            obtain ⟨hkP, hkname⟩ := package_map_some P k pkgK hmk
            exact (mem_requirers P c k).mpr ⟨pkgK, hkP, hkname, hc⟩
          rw [hreq] at hkmem
          cases hkmem
    · unfold depContrib at hcon
      cases hmm : package_map P m with
      | none => rw [hmm] at hcon; cases hcon
      | some pkgM =>
          rw [hmm] at hcon
          rcases List.mem_map.mp hcon with ⟨a, hfil, heq⟩
          subst heq
          rw [hm] at hmm
          cases hmm
          rcases List.mem_filter.mp hfil with ⟨hflat, _⟩
          rcases List.mem_flatMap.mp hflat with ⟨c, hc, hareq⟩
          obtain ⟨hpkgP, hpkgname⟩ := package_map_some P m pkg hm
          have hreq : requirers P c = [] := hnodept pkg hpkgP hpkgname c hc
          rw [hreq] at hareq
          cases hareq

/-- Witness for the amended C10: the isolated package `Z` is absent from the
bounded-mode output. -/
theorem level1_absence_spec_witness :
    "Z" ∉ (do_level1_graph [isoPkg] ["Z"] false).error ∧
    "Z" ∉ (do_level1_graph [isoPkg] ["Z"] false).outside ∧
    (do_level1_graph [isoPkg] ["Z"] false).edgeMap "Z" = [] ∧
    ∀ k, "Z" ∉ (do_level1_graph [isoPkg] ["Z"] false).edgeMap k :=
  level1_absence_spec [isoPkg] ["Z"] false "Z" isoPkg (by decide) (by decide)
    (by decide) (by decide)

/-! ### Claim C7: renderer escaping -/

/-- C7 (code bug demonstration): a lone double-quote and a lone backslash pass
through `escape_DOT_string` and `escape_DOT_label` unescaped (only the
two-character sequence backslash-quote is rewritten, and line 82 discards the
result of its backslash replacement), while the newline part of the claim does
hold: newlines become the backslash-l marker for left, backslash-r for right,
and stay untouched for center. -/
theorem escape_quote_backslash_bug :
    escape_DOT_string ['\"'] = ['\"'] ∧
    escape_DOT_string ['\\'] = ['\\'] ∧
    escape_DOT_label ['\\'] "left" = ['\\'] ∧
    escape_DOT_label ['\"'] "center" = ['\"'] ∧
    escape_DOT_string ['\\', '\"'] = ['\\', '\\', '\"'] ∧
    escape_DOT_label ['a', '\n', 'b'] "left" = ['a', '\\', 'l', 'b'] ∧
    escape_DOT_label ['a', '\n', 'b'] "right" = ['a', '\\', 'r', 'b'] ∧
    escape_DOT_label ['a', '\n', 'b'] "center" = ['a', '\n', 'b'] := by
  decide

/-! ### Claim C8: directory lookup failure handling -/

/-- C8 (code bug demonstration): with the system-directory lookup failing,
`finddir` returns the empty string and the run continues, but `get_packages`
then globs `Path('')`, i.e. the current working directory, so a stray `.hpkg`
file there contributes a package record — the failed directory is not treated
as containing no packages. -/
theorem get_packages_failed_dir_scans_cwd :
    finddir strayEnv "B_SYSTEM_PACKAGES_DIRECTORY" = "" ∧
    strayEnv.finddirOut "B_SYSTEM_PACKAGES_DIRECTORY" = none ∧
    get_packages strayEnv = [⟨"stray", "stray.hpkg", [], []⟩] := by
  decide

end Dependencies
